import Mathlib

/-!
Verification of the resource cache and normalization engine of the refry
library against its specification.

The engine under study lives in src/helpers/index.js.  Its heart is:

* a parameter canonicalizer (normalizeParams / _sortObject),
* a cache-key deriver (requestKey, built on the string-hash package),
* a resource-definition normalizer (normalizeResourceDefinition / fullUrl),
* a resolver (findInState) joining the request ledger against the entity
  store.

JavaScript runtime values are embedded shallowly: JSON-like data as the
inductive type JsonVal whose object fields are association lists in
property-enumeration order, JavaScript strings as Lean strings (identical
for the Basic Latin / BMP range used throughout), JavaScript numbers as
integers (the engine only ever hashes and prints them), absent object
properties as Option.none, and thrown definition errors as Except.error.
-/

set_option maxHeartbeats 1600000
set_option maxRecDepth 8192

/-- JSON-like JavaScript value.  Object fields are kept as an association
list in the order the JavaScript engine enumerates the properties, because
JSON.stringify serializes fields in exactly that order. -/
inductive JsonVal where
  | str (s : String)
  | num (n : Int)
  | bool (b : Bool)
  | null
  | obj (fields : List (String × JsonVal))
  | arr (elems : List JsonVal)

/-- Escape one character the way JSON.stringify escapes string contents.
Only the quote and backslash escapes are modelled; control characters do
not occur in any value handled here. -/
def jsonEscapeChar (c : Char) : List Char :=
  if c = '"' then ['\\', '"']
  else if c = '\\' then ['\\', '\\']
  else [c]

/-- JSON string literal for s, in double quotes. -/
def jsonQuote (s : String) : String :=
  "\"" ++ String.mk (s.data.foldr (fun c acc => jsonEscapeChar c ++ acc) []) ++ "\""

mutual

/-- JSON.stringify over the value embedding.  Fields are serialized in
list (property-enumeration) order; this order-sensitivity is exactly what
several claims hinge on. -/
def jsonStringify : JsonVal → String
  | .str s => jsonQuote s
  | .num n => toString n
  | .bool b => Bool.rec "false" "true" b
  | .null => "null"
  | .obj fs => "\x7b" ++ jsonStringifyFields fs ++ "\x7d"
  | .arr xs => "[" ++ jsonStringifyElems xs ++ "]"

/-- Comma-separated "key":value serialization of object fields. -/
def jsonStringifyFields : List (String × JsonVal) → String
  | [] => ""
  | [(k, v)] => jsonQuote k ++ ":" ++ jsonStringify v
  | (k, v) :: rest => jsonQuote k ++ ":" ++ jsonStringify v ++ "," ++ jsonStringifyFields rest

/-- Comma-separated serialization of array elements. -/
def jsonStringifyElems : List JsonVal → String
  | [] => ""
  | [v] => jsonStringify v
  | v :: rest => jsonStringify v ++ "," ++ jsonStringifyElems rest

end

/-- Lexicographic comparison of character sequences; this is how the
default JavaScript Array.prototype.sort comparator orders strings (by
code units, which agree with code points on the range used here). -/
def charListLt : List Char → List Char → Bool
  | _, [] => false
  | [], _ :: _ => true
  | a :: as, b :: bs => decide (a < b) || (decide (a = b) && charListLt as bs)

theorem charListLt_asymm : ∀ a b : List Char,
    charListLt a b = true → charListLt b a = false
  | _, [], h => by simp [charListLt] at h
  | [], _ :: _, _ => by simp [charListLt]
  | a :: as, b :: bs, h => by
    simp only [charListLt, Bool.or_eq_true, Bool.and_eq_true, decide_eq_true_eq] at h ⊢
    simp only [Bool.or_eq_false_iff, Bool.and_eq_false_iff, decide_eq_false_iff_not,
      decide_eq_true_eq]
    rcases h with h | ⟨rfl, h⟩
    · exact ⟨not_lt_of_lt h, Or.inl (ne_of_gt h)⟩
    · exact ⟨lt_irrefl a, Or.inr (charListLt_asymm as bs h)⟩

theorem charListLt_trich : ∀ a b : List Char,
    charListLt a b = true ∨ a = b ∨ charListLt b a = true
  | [], [] => Or.inr (Or.inl rfl)
  | [], _ :: _ => Or.inl rfl
  | _ :: _, [] => Or.inr (Or.inr rfl)
  | a :: as, b :: bs => by
    simp only [charListLt, Bool.or_eq_true, Bool.and_eq_true, decide_eq_true_eq,
      List.cons.injEq]
    rcases lt_trichotomy a b with h | rfl | h
    · exact Or.inl (Or.inl h)
    · rcases charListLt_trich as bs with h | rfl | h
      · exact Or.inl (Or.inr ⟨rfl, h⟩)
      · exact Or.inr (Or.inl ⟨rfl, rfl⟩)
      · exact Or.inr (Or.inr (Or.inr ⟨rfl, h⟩))
    · exact Or.inr (Or.inr (Or.inl h))

theorem charListLt_trans : ∀ a b c : List Char,
    charListLt a b = true → charListLt b c = true → charListLt a c = true
  | _, _, [], _, h2 => by simp [charListLt] at h2
  | _, [], _ :: _, h1, _ => by simp [charListLt] at h1
  | [], _ :: _, _ :: _, _, _ => rfl
  | a :: as, b :: bs, c :: cs, h1, h2 => by
    simp only [charListLt, Bool.or_eq_true, Bool.and_eq_true, decide_eq_true_eq] at h1 h2 ⊢
    rcases h1 with h1 | ⟨rfl, h1⟩
    · rcases h2 with h2 | ⟨rfl, _⟩
      · exact Or.inl (lt_trans h1 h2)
      · exact Or.inl h1
    · rcases h2 with h2 | ⟨rfl, h2⟩
      · exact Or.inl h2
      · exact Or.inr ⟨rfl, charListLt_trans as bs cs h1 h2⟩

theorem string_data_inj {s t : String} (h : s.data = t.data) : s = t := by
  cases s; cases t; exact congrArg String.mk h

/-- Ordering used on key/value pairs by the Object.keys(obj).sort() call
in the source: pair a may stay before pair b whenever b's key is not
strictly below a's key. -/
def keyLE (a b : String × JsonVal) : Prop :=
  charListLt b.1.data a.1.data = false

/-- Strict key order on pairs. -/
def keyLT (a b : String × JsonVal) : Prop :=
  charListLt a.1.data b.1.data = true

instance : DecidableRel keyLE := fun _ _ => instDecidableEqBool _ _

instance : DecidableRel keyLT := fun _ _ => instDecidableEqBool _ _

instance : IsTotal (String × JsonVal) keyLE := by
  constructor
  intro a b
  by_cases h : charListLt b.1.data a.1.data = true
  · exact Or.inr (charListLt_asymm _ _ h)
  · exact Or.inl (Bool.eq_false_iff.mpr h)

instance : IsTrans (String × JsonVal) keyLE := by
  constructor
  intro a b c h1 h2
  unfold keyLE at *
  by_contra hca
  have hca' : charListLt c.1.data a.1.data = true :=
    Bool.not_eq_false _ |>.mp hca
  rcases charListLt_trich a.1.data b.1.data with h | heq | h
  · have hcb : charListLt c.1.data b.1.data = true := charListLt_trans _ _ _ hca' h
    rw [hcb] at h2; exact Bool.noConfusion h2
  · rw [← heq] at h2; rw [hca'] at h2; exact Bool.noConfusion h2
  · rw [h] at h1; exact Bool.noConfusion h1

instance : IsAntisymm (String × JsonVal) keyLT := by
  constructor
  intro a b h1 h2
  unfold keyLT at *
  rw [charListLt_asymm _ _ h1] at h2
  exact Bool.noConfusion h2

theorem keyLT_of_keyLE_of_ne {a b : String × JsonVal}
    (hle : keyLE a b) (hne : a.1 ≠ b.1) : keyLT a b := by
  unfold keyLE at hle
  unfold keyLT
  rcases charListLt_trich a.1.data b.1.data with h | heq | h
  · exact h
  · exact absurd (string_data_inj heq) hne
  · rw [h] at hle; exact Bool.noConfusion hle

mutual

/-- Value transformation performed by the source's _sortObject on a
property value: object values are sorted recursively, everything else is
returned unchanged.  In both call sites of the engine (inside
normalizeParams) every value reaching _sortObject has already been
JSON-stringified when it was object-typed, so the recursive branch, and
JavaScript's behaviour on array or null values there, are never
exercised; the model recurses into object values just as the source
does and leaves the remaining constructors unchanged. -/
def sortObjectVal : JsonVal → JsonVal
  | .obj fs => .obj (List.insertionSort keyLE (sortObjectFields fs))
  | v => v

/-- Pointwise sortObjectVal over the fields of an object. -/
def sortObjectFields : List (String × JsonVal) → List (String × JsonVal)
  | [] => []
  | (k, v) :: rest => (k, sortObjectVal v) :: sortObjectFields rest

end

/-- Source function _sortObject: Object.keys(obj).sort().reduce(...),
rebuilding the object with its keys in ascending order. -/
def sortObject (fields : List (String × JsonVal)) : List (String × JsonVal) :=
  List.insertionSort keyLE (sortObjectFields fields)

/-- JavaScript typeof v === 'object'; true for objects, arrays and null. -/
def jsTypeofIsObject : JsonVal → Bool
  | .obj _ => true
  | .arr _ => true
  | .null => true
  | _ => false

/-- First pass of normalizeParams: every own property whose value has
typeof 'object' is replaced by its JSON text (in insertion order); this
mutates the params object in the source, so the transformed list is also
what a caller observes afterwards. -/
def stringifyObjectValues (params : List (String × JsonVal)) : List (String × JsonVal) :=
  params.map fun kv =>
    (kv.1, if jsTypeofIsObject kv.2 then JsonVal.str (jsonStringify kv.2) else kv.2)

/-- Characters left unescaped by encodeURIComponent, and likewise by
Node's querystring.escape: alphanumerics and - _ . ! ~ * apostrophe ( ). -/
def uriUnreserved (c : Char) : Bool :=
  c.isAlphanum || c == '-' || c == '_' || c == '.' || c == '!' || c == '~' ||
    c == '*' || c == Char.ofNat 39 || c == '(' || c == ')'

/-- UTF-8 code units of the code point n. -/
def utf8Bytes (n : Nat) : List Nat :=
  if n < 128 then [n]
  else if n < 2048 then [192 + n / 64, 128 + n % 64]
  else if n < 65536 then [224 + n / 4096, 128 + (n / 64) % 64, 128 + n % 64]
  else [240 + n / 262144, 128 + (n / 4096) % 64, 128 + (n / 64) % 64, 128 + n % 64]

/-- Upper-case hexadecimal digit. -/
def hexDigitChar (n : Nat) : Char :=
  if n < 10 then Char.ofNat (48 + n) else Char.ofNat (55 + n)

/-- Percent-encoding of one byte, upper-case. -/
def percentEncodeByte (b : Nat) : List Char :=
  ['%', hexDigitChar (b / 16), hexDigitChar (b % 16)]

/-- JavaScript encodeURIComponent. -/
def encodeURIComponent (s : String) : String :=
  String.mk (s.data.foldr
    (fun c acc =>
      (if uriUnreserved c then [c] else (utf8Bytes c.toNat).flatMap percentEncodeByte) ++ acc)
    [])

/-- Node's querystring value conversion: strings stay, numbers and
booleans print, and any other value becomes the empty string.  Arrays
would expand into repeated keys in Node, but normalizeParams has already
stringified every object-typed value before this point. -/
def qsStringifyPrimitive : JsonVal → String
  | .str s => s
  | .num n => toString n
  | .bool b => Bool.rec "false" "true" b
  | _ => ""

/-- Node's querystring.stringify on an object: escape(key)=escape(value)
pairs joined with ampersands, in property order. -/
def qsStringify (obj : List (String × JsonVal)) : String :=
  String.intercalate "&" (obj.map fun kv =>
    encodeURIComponent kv.1 ++ "=" ++ encodeURIComponent (qsStringifyPrimitive kv.2))

/-- Source function normalizeParams: stringify object-typed values, sort
the keys, then querystring-encode.  An absent argument defaults to the
empty object in the source; callers pass the empty list for it here. -/
def normalizeParams (params : List (String × JsonVal)) : String :=
  qsStringify (sortObject (stringifyObjectValues params))

/-- Hash of the string-hash npm package: a 32-bit djb2-xor variant that
walks the string from its last character to its first. -/
def stringHash (s : String) : Nat :=
  s.data.reverse.foldl (fun h c => ((h * 33) % 4294967296) ^^^ c.toNat) 5381

/-- Source function requestKey: hash of
method|url|normalizeParams(headers)|normalizeParams(body) with each of
the four parts URI-component-encoded before joining. -/
def requestKey (url : String) (headers : Option (List (String × JsonVal)))
    (method : String) (body : Option (List (String × JsonVal))) : Nat :=
  stringHash (String.intercalate "|"
    ([method, url, normalizeParams (headers.getD []),
      normalizeParams (body.getD [])].map encodeURIComponent))

/-- Normalizr schema capability object: either it exposes getKey
directly (a singular entity schema) or only getItemSchema().getKey() (a
collection of one entity type). -/
inductive Schema where
  | singular (key : String)
  | collection (itemKey : String)
deriving DecidableEq

/-- The isArray derivation !definition.schema.getKey: true exactly when
the schema does not expose getKey itself. -/
def schemaIsArray : Schema → Bool
  | .singular _ => false
  | .collection _ => true

/-- Strip all trailing slash characters, the url.replace(/\/+$/, '')
step of fullUrl. -/
def stripTrailingSlashes (url : String) : String :=
  String.mk ((url.data.reverse.dropWhile (fun c => c == '/')).reverse)

/-- True when the string contains a question mark at all. -/
def containsQuestionMark (s : String) : Bool :=
  s.data.any (fun c => c == '?')

/-- Helper scanning consecutive character pairs for the regular
expression /\?[^#]/ of the source. -/
def hasLiteralQueryAux : List Char → Bool
  | c1 :: c2 :: rest => (c1 == '?' && c2 != '#') || hasLiteralQueryAux (c2 :: rest)
  | _ => false

/-- The test /\?[^#]/.test(url): a question mark followed by a character
other than a hash sign. -/
def hasLiteralQuery (url : String) : Bool :=
  hasLiteralQueryAux url.data

/-- Modelled from the spec: the third-party normalize-url package (not
part of this repository's sources) called with stripWWW false.  Per the
spec the URL is brought to a canonical form with trailing slashes
stripped and www. preserved; the model strips trailing slashes from the
part before the query and drops an empty query, leaving everything else,
including any www. prefix, untouched. -/
def normalizeUrl (url : String) : String :=
  match url.data.span (fun c => c != '?') with
  | (base, rest) =>
    let base := stripTrailingSlashes (String.mk base)
    match rest with
    | [] => base
    | _ :: query => if query.isEmpty then base else base ++ "?" ++ String.mk query

/-- Source function fullUrl: strip trailing slashes, append the
canonicalized params as /?query when params is present (an empty params
object is still truthy and appends an empty query), then normalize. -/
def fullUrl (url : String) (params : Option (List (String × JsonVal))) : String :=
  let url := stripTrailingSlashes url
  let url :=
    match params with
    | none => url
    | some ps => url ++ "/?" ++ normalizeParams ps
  normalizeUrl url

/-- ASCII upper-casing of one character, as String.prototype.toUpperCase
acts on the method names occurring here. -/
def asciiToUpper (c : Char) : Char :=
  if 97 ≤ c.toNat ∧ c.toNat ≤ 122 then Char.ofNat (c.toNat - 32) else c

/-- JavaScript String.prototype.toUpperCase over the embedding. -/
def jsToUpper (s : String) : String :=
  String.mk (s.data.map asciiToUpper)

/-- Raw resource-definition fields, each optional because a user-supplied
definition object may omit any of them.  The function-valued fields of
the source defaults (normalize, actions) take no part in any behaviour
modelled here and are omitted. -/
structure RawBase where
  schema : Option Schema
  url : Option String
  method : Option String
  headers : Option (List (String × JsonVal))
  body : Option (List (String × JsonVal))
  params : Option (List (String × JsonVal))
  auto : Option Bool
  store : Option Bool
  clientOnly : Option Bool
  defaultValue : Option JsonVal

/-- The all-absent raw definition, the empty object. -/
def emptyRawBase : RawBase :=
  ⟨none, none, none, none, none, none, none, none, none, none⟩

/-- A raw definition together with its optional extends object.  The
source spreads only one level of extends, so the extends object's own
extends key never contributes fields and is not modelled. -/
structure RawDef extends RawBase where
  «extends» : Option RawBase

/-- Result of the defaults/extends/raw object-spread merge
definitionDefaults, then definition.extends or the empty object, then
the definition itself, later spreads winning per present key. -/
structure MergedDef where
  schema : Option Schema
  url : Option String
  method : String
  headers : Option (List (String × JsonVal))
  body : Option (List (String × JsonVal))
  params : Option (List (String × JsonVal))
  auto : Option Bool
  store : Option Bool
  clientOnly : Bool
  defaultValue : Option JsonVal
  «extends» : RawBase

/-- The merge step of normalizeResourceDefinition.  Built-in defaults
supply method GET and clientOnly false (plus the function-valued fields
not modelled); every other field falls back from the definition to its
extends object to absent. -/
def mergeDef (d : RawDef) : MergedDef :=
  let e := d.«extends».getD emptyRawBase
  { schema := d.schema <|> e.schema
    url := d.url <|> e.url
    method := (d.method <|> e.method).getD "GET"
    headers := d.headers <|> e.headers
    body := d.body <|> e.body
    params := d.params <|> e.params
    auto := d.auto <|> e.auto
    store := d.store <|> e.store
    clientOnly := (d.clientOnly <|> e.clientOnly).getD false
    defaultValue := d.defaultValue <|> e.defaultValue
    «extends» := d.«extends».getD emptyRawBase }

/-- Failure modes of normalizeResourceDefinition.  The two invariant
violations raise definition errors in the source; missingUrl stands for
the TypeError that url.replace throws when the merged definition carries
no url at all (the regular-expression test beforehand coerces undefined
to the string "undefined" and passes). -/
inductive DefError where
  | missingSchema
  | missingUrl
  | literalQueryString
deriving DecidableEq

/-- Fully normalized resource definition, the object
normalizeResourceDefinition returns: the merged fields (headers, body
and params as left by the in-place stringification that normalizeParams
performs on them) plus the derived url, upper-cased method, isArray,
requestKey, defaultValue and the GET-only auto and store defaults. -/
structure NormalizedDef where
  schema : Schema
  url : String
  method : String
  headers : Option (List (String × JsonVal))
  body : Option (List (String × JsonVal))
  params : Option (List (String × JsonVal))
  isArray : Bool
  requestKey : Nat
  defaultValue : JsonVal
  auto : Option Bool
  store : Option Bool
  clientOnly : Bool
  «extends» : RawBase

/-- Source function schemaKey, applied to a definition: the schema's own
key when it has one, otherwise the key of its item schema. -/
def schemaKey (resourceDefinition : NormalizedDef) : String :=
  match resourceDefinition.schema with
  | .singular key => key
  | .collection itemKey => itemKey

/-- Source function normalizeResourceDefinition: merge, check the two
invariants, then derive url, method, isArray, requestKey, defaultValue
and the GET defaults for auto and store. -/
def normalizeResourceDefinition (definition : RawDef) : Except DefError NormalizedDef :=
  let m := mergeDef definition
  match m.schema with
  | none => .error .missingSchema
  | some schema =>
    match m.url with
    | none => .error .missingUrl
    | some url0 =>
      if hasLiteralQuery url0 then .error .literalQueryString
      else
        let url := fullUrl url0 m.params
        let method := jsToUpper m.method
        let isArray := schemaIsArray schema
        let rKey := requestKey url m.headers method m.body
        .ok {
          schema := schema
          url := url
          method := method
          headers := m.headers.map stringifyObjectValues
          body := m.body.map stringifyObjectValues
          params := m.params.map stringifyObjectValues
          isArray := isArray
          requestKey := rKey
          defaultValue := m.defaultValue.getD (if isArray then .arr [] else .obj [])
          auto := if method = "GET" then some (m.auto.getD true) else m.auto
          store := if method = "GET" then some (m.store.getD true) else m.store
          clientOnly := m.clientOnly
          «extends» := m.«extends» }

/-- Re-reading a normalized definition as a raw definition object; in
JavaScript the two are the same plain object, so every field is simply
present. -/
def reraw (n : NormalizedDef) : RawDef :=
  { schema := some n.schema
    url := some n.url
    method := some n.method
    headers := n.headers
    body := n.body
    params := n.params
    auto := n.auto
    store := n.store
    clientOnly := some n.clientOnly
    defaultValue := some n.defaultValue
    «extends» := some n.«extends» }

/-- Normalizing and then normalizing the result again. -/
def renormalize (d : RawDef) : Except DefError NormalizedDef :=
  (normalizeResourceDefinition d).bind fun n => normalizeResourceDefinition (reraw n)

/-- Runtime JavaScript value as seen by the resolver: undefined, a JSON
value, or an array whose elements may themselves be undefined (a mapped
entity lookup that found nothing). -/
inductive JVal where
  | undefined
  | json (v : JsonVal)
  | list (elems : List JVal)

/-- JavaScript truthiness of a resolver value: undefined and null are
falsy, as are 0, the empty string and false; arrays and objects are
always truthy (including empty ones). -/
def jvalTruthy : JVal → Bool
  | .undefined => false
  | .json (.str s) => !s.isEmpty
  | .json (.num n) => n != 0
  | .json (.bool b) => b
  | .json .null => false
  | .json (.obj _) => true
  | .json (.arr _) => true
  | .list _ => true

/-- Indexing mappedResources[0]: the first element of an array, or
undefined when the array is empty.  At its use site mappedResources is
always an array. -/
def jvalHead : JVal → JVal
  | .list (x :: _) => x
  | _ => .undefined

/-- Ledger metadata: fetch status, invalidation flag and optional error
text. -/
structure Meta where
  isFetching : Bool
  didInvalidate : Bool
  error : Option String
deriving DecidableEq

/-- One request-ledger entry: its meta plus, per entity-type key, the
list of entity ids the request resolved to.  The source also tolerates a
single scalar id in place of a list; only the id-list form, the one the
spec's resolver description uses, is modelled (the resolver would call
.map on a scalar otherwise). -/
structure LedgerEntry where
  meta : Meta
  data : List (String × List Nat)

/-- The connect slice of the Redux state: the request ledger
(paramsToResources, keyed by request key) and the entity store
(resources, keyed by entity type and id). -/
structure ConnectState where
  paramsToResources : List (Nat × LedgerEntry)
  resources : List (String × List (Nat × JsonVal))

/-- The full state object handed to findInState. -/
structure State where
  connect : ConnectState

/-- Result of findInState: the JavaScript boolean false on a miss, or
the object with exactly the two fields meta and value on a hit. -/
inductive FindResult where
  | miss
  | hit (meta : Meta) (value : JVal)

/-- Source function findInState: look the request key up in the ledger,
miss when the entry or its id list under the schema key is absent or the
entry is invalidated; otherwise join the ids against the entity store
(falling back to the raw id list when the store has no bucket for this
type), substitute defaultValue for a falsy joined value, and take the
first element for non-array schemas. -/
def findInState (state : State) (resourceDefinition : NormalizedDef) : FindResult :=
  let key := schemaKey resourceDefinition
  match state.connect.paramsToResources.lookup resourceDefinition.requestKey with
  | none => .miss
  | some resourceMap =>
    match resourceMap.data.lookup key with
    | none => .miss
    | some resourceKeys =>
      if resourceMap.meta.didInvalidate then .miss
      else
        let mappedResources : JVal :=
          match state.connect.resources.lookup key with
          | some entities =>
            .list (resourceKeys.map fun id =>
              match entities.lookup id with
              | some entity => .json entity
              | none => .undefined)
          | none => .list (resourceKeys.map fun id => .json (.num (Int.ofNat id)))
        let mappedResources :=
          if jvalTruthy mappedResources = false then
            JVal.json resourceDefinition.defaultValue
          else if resourceDefinition.isArray = false then
            jvalHead mappedResources
          else
            mappedResources
        .hit resourceMap.meta mappedResources

mutual

/-- Deep key-sorting of a value, used only to state the specification's
notion of two values being deeply equal ignoring key order at every
nesting level: values are deeply equal in that sense exactly when their
deep sorts coincide.  This is specification vocabulary, not a source
function. -/
def deepSortVal : JsonVal → JsonVal
  | .obj fs => .obj (List.insertionSort keyLE (deepSortFields fs))
  | .arr xs => .arr (deepSortElems xs)
  | v => v

/-- Pointwise deepSortVal over object fields. -/
def deepSortFields : List (String × JsonVal) → List (String × JsonVal)
  | [] => []
  | (k, v) :: rest => (k, deepSortVal v) :: deepSortFields rest

/-- Pointwise deepSortVal over array elements (array order is
significant and is kept). -/
def deepSortElems : List JsonVal → List JsonVal
  | [] => []
  | v :: rest => deepSortVal v :: deepSortElems rest

end

/-- Two top-level parameter objects are deeply equal ignoring key order
at every nesting level exactly when their deep sorts agree. -/
def DeepEqUpToKeyOrder (a b : List (String × JsonVal)) : Prop :=
  deepSortVal (.obj a) = deepSortVal (.obj b)

/-- A request as handed to the cache-key deriver. -/
structure Request where
  url : String
  headers : Option (List (String × JsonVal))
  method : String
  body : Option (List (String × JsonVal))

/-- Cache-key derivation on a request record, the deriveKey contract of
the specification. -/
def deriveKey (r : Request) : Nat :=
  requestKey r.url r.headers r.method r.body

/-- Headers or body objects that agree up to a permutation of their
top-level keys (both absent, or both present with the same distinct-key
bindings in some order). -/
def TopPermEq : Option (List (String × JsonVal)) → Option (List (String × JsonVal)) → Prop
  | none, none => True
  | some a, some b => a.Perm b ∧ (a.map Prod.fst).Nodup
  | _, _ => False

theorem sortObjectFields_eq_map (l : List (String × JsonVal)) :
    sortObjectFields l = l.map (fun kv => (kv.1, sortObjectVal kv.2)) := by
  induction l with
  | nil => rfl
  | cons kv rest ih => cases kv; simp [sortObjectFields, ih]

theorem sorted_keyLT {l : List (String × JsonVal)}
    (hs : List.Pairwise keyLE l) (hn : (l.map Prod.fst).Nodup) :
    List.Pairwise keyLT l := by
  have hne : List.Pairwise (fun a b : String × JsonVal => a.1 ≠ b.1) l :=
    List.pairwise_map.mp hn
  exact (hs.and hne).imp fun h => keyLT_of_keyLE_of_ne h.1 h.2

/-- Sorting an object's keys is insensitive to the order its properties
were inserted in, as long as the keys are distinct: any two permutations
of the same bindings sort to the same association list. -/
theorem sortObject_perm_eq {l1 l2 : List (String × JsonVal)}
    (hp : l1.Perm l2) (hn : (l1.map Prod.fst).Nodup) :
    sortObject l1 = sortObject l2 := by
  have hm : (l1.map (fun kv => (kv.1, sortObjectVal kv.2))).Perm
      (l2.map (fun kv => (kv.1, sortObjectVal kv.2))) := hp.map _
  have hperm : (sortObject l1).Perm (sortObject l2) := by
    unfold sortObject
    rw [sortObjectFields_eq_map, sortObjectFields_eq_map]
    exact ((List.perm_insertionSort _ _).trans hm).trans
      (List.perm_insertionSort _ _).symm
  have hfst : ∀ l : List (String × JsonVal),
      (l.map (fun kv => (kv.1, sortObjectVal kv.2))).map Prod.fst = l.map Prod.fst := by
    intro l; rw [List.map_map]; rfl
  have hn1 : ((sortObject l1).map Prod.fst).Nodup := by
    have hp1 : (sortObject l1).Perm (l1.map (fun kv => (kv.1, sortObjectVal kv.2))) := by
      unfold sortObject; rw [sortObjectFields_eq_map]; exact List.perm_insertionSort _ _
    exact ((hp1.map Prod.fst).nodup_iff).mpr (by rw [hfst]; exact hn)
  have hn2 : ((sortObject l2).map Prod.fst).Nodup :=
    ((hperm.map Prod.fst).nodup_iff).mp hn1
  have hs1 : List.Pairwise keyLT (sortObject l1) :=
    sorted_keyLT (List.sorted_insertionSort keyLE _) hn1
  have hs2 : List.Pairwise keyLT (sortObject l2) :=
    sorted_keyLT (List.sorted_insertionSort keyLE _) hn2
  exact List.eq_of_perm_of_sorted hperm hs1 hs2

/-- Canonicalization is insensitive to top-level key permutations of the
parameter object (with distinct keys, as JavaScript objects have). -/
theorem normalizeParams_perm_eq {l1 l2 : List (String × JsonVal)}
    (hp : l1.Perm l2) (hn : (l1.map Prod.fst).Nodup) :
    normalizeParams l1 = normalizeParams l2 := by
  unfold normalizeParams
  have hps : (stringifyObjectValues l1).Perm (stringifyObjectValues l2) := hp.map _
  have hns : ((stringifyObjectValues l1).map Prod.fst).Nodup := by
    unfold stringifyObjectValues
    rw [List.map_map]
    exact hn
  rw [sortObject_perm_eq hps hns]

/-- The value-stringification pass is idempotent: after one pass no
value has typeof 'object' any more. -/
theorem stringifyObjectValues_idem (l : List (String × JsonVal)) :
    stringifyObjectValues (stringifyObjectValues l) = stringifyObjectValues l := by
  unfold stringifyObjectValues
  rw [List.map_map]
  apply List.map_congr_left
  intro kv _
  cases hv : kv.2 <;> simp [jsTypeofIsObject, hv]

/-- Canonicalizing an already value-stringified object gives the same
string as canonicalizing the original object. -/
theorem normalizeParams_stringify (l : List (String × JsonVal)) :
    normalizeParams (stringifyObjectValues l) = normalizeParams l := by
  unfold normalizeParams
  rw [stringifyObjectValues_idem]

theorem string_mk_data (s : String) : String.mk s.data = s := by
  cases s; rfl

theorem asciiToUpper_idem (c : Char) : asciiToUpper (asciiToUpper c) = asciiToUpper c := by
  unfold asciiToUpper
  by_cases h : 97 ≤ c.toNat ∧ c.toNat ≤ 122
  · have hv : (c.toNat - 32).isValidChar := Or.inl (by omega)
    have ht : (Char.ofNat (c.toNat - 32)).toNat = c.toNat - 32 := by
      simp only [Char.ofNat, dif_pos hv]; rfl
    rw [if_pos h, if_neg (by rw [ht]; omega)]
  · rw [if_neg h, if_neg h]

theorem jsToUpper_idem (s : String) : jsToUpper (jsToUpper s) = jsToUpper s := by
  unfold jsToUpper
  have : (String.mk (s.data.map asciiToUpper)).data = s.data.map asciiToUpper := rfl
  rw [this, List.map_map]
  apply congrArg
  apply List.map_congr_left
  intro c _
  exact asciiToUpper_idem c

theorem dropWhile_idem (p : Char → Bool) (l : List Char) :
    List.dropWhile p (List.dropWhile p l) = List.dropWhile p l := by
  induction l with
  | nil => rfl
  | cons a l ih =>
    by_cases h : p a = true
    · rw [List.dropWhile_cons_of_pos h]; exact ih
    · rw [List.dropWhile_cons_of_neg h, List.dropWhile_cons_of_neg h]

theorem stripTrailingSlashes_idem (s : String) :
    stripTrailingSlashes (stripTrailingSlashes s) = stripTrailingSlashes s := by
  unfold stripTrailingSlashes
  have hd : (String.mk ((s.data.reverse.dropWhile (fun c => c == '/')).reverse)).data
      = (s.data.reverse.dropWhile (fun c => c == '/')).reverse := rfl
  rw [hd, List.reverse_reverse, dropWhile_idem]

theorem containsQuestionMark_strip {s : String}
    (h : containsQuestionMark s = false) :
    containsQuestionMark (stripTrailingSlashes s) = false := by
  unfold containsQuestionMark at h ⊢
  unfold stripTrailingSlashes
  rw [List.any_eq_false] at h ⊢
  intro c hc
  apply h
  have hc1 : c ∈ (s.data.reverse.dropWhile (fun c => c == '/')).reverse := hc
  have hc2 : c ∈ s.data.reverse.dropWhile (fun c => c == '/') := List.mem_reverse.mp hc1
  exact List.mem_reverse.mp ((List.dropWhile_sublist _).subset hc2)

theorem no_qm_chars {u : String} (h : containsQuestionMark u = false) :
    ∀ c ∈ u.data, (c == '?') = false := by
  unfold containsQuestionMark at h
  rw [List.any_eq_false] at h
  intro c hc
  exact Bool.eq_false_iff.mpr (h c hc)

theorem normalizeUrl_no_qm {u : String} (h : containsQuestionMark u = false) :
    normalizeUrl u = stripTrailingSlashes u := by
  unfold normalizeUrl
  have hch := no_qm_chars h
  have hspan : u.data.span (fun c => c != '?') = (u.data, []) := by
    rw [List.span_eq_take_drop]
    rw [Prod.mk.injEq]
    refine ⟨?_, ?_⟩
    · rw [List.takeWhile_eq_self_iff]
      intro c hc
      simpa using hch c hc
    · rw [List.dropWhile_eq_nil_iff]
      intro c hc
      simpa using hch c hc
  rw [hspan]

theorem hasLiteralQueryAux_false : ∀ l : List Char,
    (∀ c ∈ l, (c == '?') = false) → hasLiteralQueryAux l = false
  | [], _ => rfl
  | [_], _ => rfl
  | c1 :: c2 :: rest, h => by
    unfold hasLiteralQueryAux
    rw [h c1 (by simp), hasLiteralQueryAux_false (c2 :: rest) (fun c hc => h c (by simp [hc]))]
    rfl

theorem hasLiteralQuery_of_no_qm {u : String}
    (h : containsQuestionMark u = false) : hasLiteralQuery u = false :=
  hasLiteralQueryAux_false _ (no_qm_chars h)

theorem fullUrl_none_no_qm {u : String} (h : containsQuestionMark u = false) :
    fullUrl u none = stripTrailingSlashes u := by
  unfold fullUrl
  simp only
  rw [normalizeUrl_no_qm (containsQuestionMark_strip h), stripTrailingSlashes_idem]

example : normalizeParams [("b", .str "2"), ("a", .str "1")] = "a=1&b=2" := rfl

example : jsonStringify (.obj [("x", .num 1), ("y", .num 2)]) = "\x7b\"x\":1,\"y\":2\x7d" := rfl

example :
    normalizeParams [("a", .obj [("x", .num 1), ("y", .num 2)])]
      = "a=%7B%22x%22%3A1%2C%22y%22%3A2%7D" := rfl

example :
    fullUrl "http://a/users" (some [("a", .num 1)]) = "http://a/users?a=1" := rfl

/-! Concrete cache fixtures used by several resolver claims. -/

/-- Entity A of the resolver-correctness scenario. -/
def userA : JsonVal := .obj [("id", .num 1), ("name", .str "Alice")]

/-- Entity B of the resolver-correctness scenario. -/
def userB : JsonVal := .obj [("id", .num 2), ("name", .str "Bob")]

/-- A ledger meta that is neither fetching nor invalidated. -/
def metaOk : Meta := ⟨false, false, none⟩

/-- Normalized definition with a collection schema over entity type user. -/
def arrayUserDef : NormalizedDef :=
  { schema := .collection "user"
    url := "http://a/users"
    method := "GET"
    headers := none
    body := none
    params := none
    isArray := true
    requestKey := 42
    defaultValue := .arr []
    auto := some true
    store := some true
    clientOnly := false
    «extends» := emptyRawBase }

/-- Normalized definition with a singular schema over entity type user,
for the same request key. -/
def singularUserDef : NormalizedDef :=
  { schema := .singular "user"
    url := "http://a/users"
    method := "GET"
    headers := none
    body := none
    params := none
    isArray := false
    requestKey := 42
    defaultValue := .obj []
    auto := some true
    store := some true
    clientOnly := false
    «extends» := emptyRawBase }

/-- Cache state whose ledger records ids 1 and 2 under entity type user
for request key 42 and whose entity store holds userA and userB. -/
def userState : State :=
  ⟨⟨[(42, ⟨metaOk, [("user", [1, 2])]⟩)], [("user", [(1, userA), (2, userB)])]⟩⟩

/-- Cache state whose ledger entry records an empty id list under entity
type user and whose entity store has an (empty) user bucket. -/
def emptyIdsState : State :=
  ⟨⟨[(42, ⟨metaOk, [("user", [])]⟩)], [("user", [])]⟩⟩

/-- C3: with ids 1 and 2 recorded under entity type user and entities A
and B in the store, the resolver returns the hit value A-then-B for the
collection schema, and just the first resolved entity A for the singular
schema over the same request. -/
theorem findInState_resolves_recorded_ids :
    findInState userState arrayUserDef = .hit metaOk (.list [.json userA, .json userB]) ∧
    findInState userState singularUserDef = .hit metaOk (.json userA) :=
  ⟨rfl, rfl⟩

/-- C6 counterexample: on a hit whose recorded id list is empty, a
singular-schema resolve returns the JavaScript value undefined, not the
definition's defaultValue (which is the empty object here): the empty
array is truthy, so the defaultValue substitution branch is skipped and
indexing [0] into the empty joined array yields undefined. -/
theorem findInState_empty_ids_counterexample :
    findInState emptyIdsState singularUserDef = .hit metaOk .undefined ∧
    singularUserDef.defaultValue = .obj [] ∧
    JVal.undefined ≠ JVal.json (.obj []) :=
  ⟨rfl, rfl, fun h => JVal.noConfusion h⟩

/-- C6 amended: whenever the ledger entry exists, is not invalidated and
records the empty id list under the schema key, the resolver returns a
hit whose value is the empty array for collection schemas and undefined
for singular schemas; the defaultValue is never substituted. -/
theorem findInState_empty_ids (s : State) (d : NormalizedDef) (e : LedgerEntry)
    (h1 : s.connect.paramsToResources.lookup d.requestKey = some e)
    (h2 : e.data.lookup (schemaKey d) = some [])
    (h3 : e.meta.didInvalidate = false) :
    findInState s d = .hit e.meta (if d.isArray then JVal.list [] else JVal.undefined) := by
  simp only [findInState, h1, h2, h3]
  cases hres : s.connect.resources.lookup (schemaKey d) with
  | none => cases hA : d.isArray <;> simp [hres, jvalTruthy, jvalHead]
  | some bucket => cases hA : d.isArray <;> simp [hres, jvalTruthy, jvalHead]

/-- C6 amended, witness at the concrete empty-id-list state. -/
theorem findInState_empty_ids_witness :
    findInState emptyIdsState singularUserDef = .hit metaOk .undefined :=
  findInState_empty_ids emptyIdsState singularUserDef ⟨metaOk, [("user", [])]⟩ rfl rfl rfl

/-- C1 counterexample: permuting keys of a nested object changes the
canonicalized string (the nested object is serialized to JSON text in
insertion order before any sorting happens), and two objects that are
not deeply equal (a number value versus its decimal string) canonicalize
to the same string; both directions of the claim fail. -/
theorem normalizeParams_counterexample :
    DeepEqUpToKeyOrder [("a", .obj [("x", .num 1), ("y", .num 2)])]
      [("a", .obj [("y", .num 2), ("x", .num 1)])] ∧
    normalizeParams [("a", .obj [("x", .num 1), ("y", .num 2)])]
      ≠ normalizeParams [("a", .obj [("y", .num 2), ("x", .num 1)])] ∧
    normalizeParams [("a", .num 1)] = normalizeParams [("a", .str "1")] ∧
    ¬ DeepEqUpToKeyOrder [("a", .num 1)] [("a", .str "1")] := by
  refine ⟨rfl, by decide, rfl, ?_⟩
  intro h
  have h2 : JsonVal.obj [("a", JsonVal.num 1)] = JsonVal.obj [("a", JsonVal.str "1")] := h
  simp at h2

/-- C1 amended: canonicalization is invariant under permutations of the
top-level keys of the parameter object (distinct keys, as JavaScript
objects have); key order below the top level, and distinct values that
print alike, are not canonicalized away. -/
theorem normalizeParams_top_level_perm (l1 l2 : List (String × JsonVal))
    (hp : l1.Perm l2) (hn : (l1.map Prod.fst).Nodup) :
    normalizeParams l1 = normalizeParams l2 :=
  normalizeParams_perm_eq hp hn

/-- C1 amended, witness on a concrete two-key permutation. -/
theorem normalizeParams_top_level_perm_witness :
    normalizeParams [("b", JsonVal.str "2"), ("a", JsonVal.str "1")]
      = normalizeParams [("a", JsonVal.str "1"), ("b", JsonVal.str "2")] :=
  normalizeParams_top_level_perm _ _ (List.Perm.swap _ _ _) (by decide)

/-- The entirely empty cache state. -/
def emptyState : State := ⟨⟨[], []⟩⟩

/-- C4: the resolver misses exactly when the ledger has no entry under
the definition's request key, or that entry's data has no id list under
the schema's entity-type key, or the entry is invalidated; every hit
carries the matching ledger entry's meta. -/
theorem findInState_miss_iff (s : State) (d : NormalizedDef) :
    (findInState s d = .miss ↔
      (s.connect.paramsToResources.lookup d.requestKey = none ∨
        ∃ e, s.connect.paramsToResources.lookup d.requestKey = some e ∧
          (e.data.lookup (schemaKey d) = none ∨ e.meta.didInvalidate = true))) ∧
    (∀ m v, findInState s d = .hit m v →
      ∃ e, s.connect.paramsToResources.lookup d.requestKey = some e ∧ m = e.meta) := by
  cases h1 : s.connect.paramsToResources.lookup d.requestKey with
  | none =>
    have hres : findInState s d = .miss := by simp only [findInState, h1]
    refine ⟨⟨fun _ => Or.inl rfl, fun _ => hres⟩, fun m v hv => ?_⟩
    rw [hres] at hv
    exact FindResult.noConfusion hv
  | some e =>
    cases h2 : e.data.lookup (schemaKey d) with
    | none =>
      have hres : findInState s d = .miss := by simp only [findInState, h1, h2]
      refine ⟨⟨fun _ => Or.inr ⟨e, rfl, Or.inl h2⟩, fun _ => hres⟩, fun m v hv => ?_⟩
      rw [hres] at hv
      exact FindResult.noConfusion hv
    | some ks =>
      cases h3 : e.meta.didInvalidate with
      | true =>
        have hres : findInState s d = .miss := by
          simp only [findInState, h1, h2, h3]
          simp
        refine ⟨⟨fun _ => Or.inr ⟨e, rfl, Or.inr h3⟩, fun _ => hres⟩, fun m v hv => ?_⟩
        rw [hres] at hv
        exact FindResult.noConfusion hv
      | false =>
        cases hres : findInState s d with
        | miss =>
          exfalso
          simp only [findInState, h1, h2, h3] at hres
          simp at hres
        | hit m0 v0 =>
          have hm0 : m0 = e.meta := by
            simp only [findInState, h1, h2, h3] at hres
            simp only [Bool.false_eq_true, if_false, FindResult.hit.injEq] at hres
            exact hres.1.symm
          refine ⟨⟨fun hmiss => ?_, fun hrhs => ?_⟩, fun m v hv => ?_⟩
          · exact FindResult.noConfusion hmiss
          · exfalso
            rcases hrhs with hc | ⟨e2, he2, hcond⟩
            · exact Option.noConfusion hc
            · obtain rfl : e = e2 := Option.some.inj he2
              rcases hcond with hc2 | hc3
              · rw [h2] at hc2
                exact Option.noConfusion hc2
              · rw [h3] at hc3
                exact Bool.noConfusion hc3
          · refine ⟨e, rfl, ?_⟩
            have hmv := FindResult.hit.inj hv
            rw [← hmv.1, hm0]

/-- C4 witness: on the empty state every resolve misses, through the
miss characterization. -/
theorem findInState_miss_iff_witness :
    findInState emptyState arrayUserDef = .miss :=
  (findInState_miss_iff emptyState arrayUserDef).1.mpr (Or.inl rfl)

/-- C10: a resolve result is either the miss marker (the JavaScript
boolean false in the source) or a hit built from exactly a meta and a
value, and the two shapes never coincide. -/
theorem findInState_result_shape (s : State) (d : NormalizedDef) :
    (findInState s d = .miss ∨ ∃ m v, findInState s d = .hit m v) ∧
    (∀ m v, FindResult.miss ≠ FindResult.hit m v) := by
  constructor
  · cases h : findInState s d with
    | miss => exact Or.inl rfl
    | hit m v => exact Or.inr ⟨m, v, rfl⟩
  · intro m v h
    exact FindResult.noConfusion h

/-- C10 witness: the two result shapes are distinguishable at a concrete
meta and value. -/
theorem findInState_result_shape_witness :
    FindResult.miss ≠ FindResult.hit metaOk JVal.undefined :=
  (findInState_result_shape emptyState singularUserDef).2 metaOk JVal.undefined

/-- C9: permuting only the top-level keys of the headers object or of
the body object (distinct keys) leaves the derived request key
unchanged, because the canonicalizer sorts the top level before
hashing. -/
theorem requestKey_top_level_perm (method url : String)
    (h1 h2 b1 b2 : List (String × JsonVal))
    (hph : h1.Perm h2) (hnh : (h1.map Prod.fst).Nodup)
    (hpb : b1.Perm b2) (hnb : (b1.map Prod.fst).Nodup) :
    requestKey url (some h1) method (some b1) = requestKey url (some h2) method (some b2) := by
  unfold requestKey
  rw [Option.getD_some, Option.getD_some, Option.getD_some, Option.getD_some]
  rw [normalizeParams_perm_eq hph hnh, normalizeParams_perm_eq hpb hnb]

/-- C9 witness at a concrete header and body permutation. -/
theorem requestKey_top_level_perm_witness :
    requestKey "http://a/u" (some [("b", JsonVal.str "2"), ("a", JsonVal.str "1")]) "GET"
        (some [("d", JsonVal.num 4), ("c", JsonVal.num 3)])
      = requestKey "http://a/u" (some [("a", JsonVal.str "1"), ("b", JsonVal.str "2")]) "GET"
        (some [("c", JsonVal.num 3), ("d", JsonVal.num 4)]) :=
  requestKey_top_level_perm "GET" "http://a/u" _ _ _ _
    (List.Perm.swap _ _ _) (by decide) (List.Perm.swap _ _ _) (by decide)

/-- C5 counterexample: both halves of the cache-key claim fail on the
code.  A body whose nested object differs only in key order is deeply
equal to the original ignoring key order, yet produces a different
request key; and two requests differing in the url can produce the same
request key, because the key is only a 32-bit hash. -/
theorem requestKey_counterexample :
    DeepEqUpToKeyOrder [("a", .obj [("x", .num 1), ("y", .num 2)])]
      [("a", .obj [("y", .num 2), ("x", .num 1)])] ∧
    requestKey "http://a/u" none "GET" (some [("a", .obj [("x", .num 1), ("y", .num 2)])])
      ≠ requestKey "http://a/u" none "GET" (some [("a", .obj [("y", .num 2), ("x", .num 1)])]) ∧
    ("http://a/0bwrt3" : String) ≠ "http://a/vd5pt3" ∧
    requestKey "http://a/0bwrt3" none "GET" none = requestKey "http://a/vd5pt3" none "GET" none :=
  ⟨rfl, by decide, by decide, rfl⟩

/-- C5 amended: requests that agree in method and url and whose headers
and bodies agree up to a permutation of their top-level keys derive the
same request key; requests that differ in a field generically change
the key but may collide, the key being a 32-bit hash of the canonical
string. -/
theorem deriveKey_top_level_equiv (r1 r2 : Request)
    (hm : r1.method = r2.method) (hu : r1.url = r2.url)
    (hh : TopPermEq r1.headers r2.headers) (hb : TopPermEq r1.body r2.body) :
    deriveKey r1 = deriveKey r2 := by
  unfold deriveKey requestKey
  rw [hm, hu]
  have hH : normalizeParams (r1.headers.getD []) = normalizeParams (r2.headers.getD []) := by
    cases hh1 : r1.headers with
    | none =>
      cases hh2 : r2.headers with
      | none => rfl
      | some b => rw [hh1, hh2] at hh; exact hh.elim
    | some a =>
      cases hh2 : r2.headers with
      | none => rw [hh1, hh2] at hh; exact hh.elim
      | some b =>
        rw [hh1, hh2] at hh
        rw [Option.getD_some, Option.getD_some]
        exact normalizeParams_perm_eq hh.1 hh.2
  have hB : normalizeParams (r1.body.getD []) = normalizeParams (r2.body.getD []) := by
    cases hb1 : r1.body with
    | none =>
      cases hb2 : r2.body with
      | none => rfl
      | some b => rw [hb1, hb2] at hb; exact hb.elim
    | some a =>
      cases hb2 : r2.body with
      | none => rw [hb1, hb2] at hb; exact hb.elim
      | some b =>
        rw [hb1, hb2] at hb
        rw [Option.getD_some, Option.getD_some]
        exact normalizeParams_perm_eq hb.1 hb.2
  rw [hH, hB]

/-- C5 amended, witness at a concrete top-level header permutation. -/
theorem deriveKey_top_level_equiv_witness :
    deriveKey ⟨"http://a/w", some [("y", JsonVal.str "2"), ("x", JsonVal.str "1")], "POST", none⟩
      = deriveKey ⟨"http://a/w", some [("x", JsonVal.str "1"), ("y", JsonVal.str "2")], "POST", none⟩ :=
  deriveKey_top_level_equiv _ _ rfl rfl ⟨List.Perm.swap _ _ _, by decide⟩ trivial

/-- Raw definition carrying a literal query string in its url. -/
def rawWithQuery : RawDef :=
  { schema := some (.singular "user")
    url := some "http://a/users?x=1"
    method := none
    headers := none
    body := none
    params := none
    auto := none
    store := none
    clientOnly := none
    defaultValue := none
    «extends» := none }

/-- Raw GET definition with neither auto nor store set. -/
def rawGet : RawDef :=
  { schema := some (.collection "user")
    url := some "http://a/users"
    method := none
    headers := none
    body := none
    params := none
    auto := none
    store := none
    clientOnly := none
    defaultValue := none
    «extends» := none }

/-- Raw POST definition with neither auto nor store set. -/
def rawPost : RawDef :=
  { schema := some (.collection "user")
    url := some "http://a/users"
    method := some "POST"
    headers := none
    body := none
    params := none
    auto := none
    store := none
    clientOnly := none
    defaultValue := none
    «extends» := none }

/-- Raw definition with params, used to exercise re-normalization. -/
def rawWithParams : RawDef :=
  { schema := some (.singular "user")
    url := some "http://a/users"
    method := none
    headers := none
    body := none
    params := some [("a", JsonVal.num 1)]
    auto := none
    store := none
    clientOnly := none
    defaultValue := none
    «extends» := none }

/-- C7: for a merged definition that supplies a url, normalization fails
exactly when the merged schema is absent or the url matches the literal
query-string test; in every other case it returns a normalized
definition without raising. -/
theorem normalizeResourceDefinition_error_iff (d : RawDef) (u : String)
    (hu : (mergeDef d).url = some u) :
    (∃ e, normalizeResourceDefinition d = .error e) ↔
      ((mergeDef d).schema = none ∨ hasLiteralQuery u = true) := by
  cases hs : (mergeDef d).schema with
  | none =>
    constructor
    · intro _
      exact Or.inl rfl
    · intro _
      exact ⟨.missingSchema, by simp only [normalizeResourceDefinition, hs]⟩
  | some sch =>
    cases hq : hasLiteralQuery u with
    | true =>
      constructor
      · intro _
        exact Or.inr rfl
      · intro _
        refine ⟨.literalQueryString, ?_⟩
        simp only [normalizeResourceDefinition, hs, hu]
        rw [if_pos hq]
    | false =>
      constructor
      · intro ⟨e, he⟩
        exfalso
        simp only [normalizeResourceDefinition, hs, hu] at he
        rw [if_neg (by rw [hq]; exact Bool.noConfusion)] at he
        exact Except.noConfusion he
      · intro h
        rcases h with hc | hc
        · exact Option.noConfusion hc
        · exact Bool.noConfusion hc

/-- C7 witness: a url with a literal query string makes normalization
fail, through the error characterization. -/
theorem normalizeResourceDefinition_error_iff_witness :
    normalizeResourceDefinition rawWithQuery = Except.error DefError.missingSchema ∨
    normalizeResourceDefinition rawWithQuery = Except.error DefError.missingUrl ∨
    normalizeResourceDefinition rawWithQuery = Except.error DefError.literalQueryString := by
  obtain ⟨e, he⟩ :=
    (normalizeResourceDefinition_error_iff rawWithQuery "http://a/users?x=1" rfl).mpr
      (Or.inr (by decide))
  cases e with
  | missingSchema => exact Or.inl he
  | missingUrl => exact Or.inr (Or.inl he)
  | literalQueryString => exact Or.inr (Or.inr he)

/-- C8: after the merge, a definition whose upper-cased method is GET
gets auto and store filled in as true whenever they were not explicitly
set, while a definition with any other method keeps auto and store
exactly as merged, hence absent (falsy, not-auto) when not explicitly
set. -/
theorem normalizeResourceDefinition_auto_store (d : RawDef) (n : NormalizedDef)
    (h : normalizeResourceDefinition d = .ok n) :
    (jsToUpper (mergeDef d).method = "GET" →
      n.auto = some ((mergeDef d).auto.getD true) ∧
      n.store = some ((mergeDef d).store.getD true)) ∧
    (jsToUpper (mergeDef d).method ≠ "GET" →
      n.auto = (mergeDef d).auto ∧ n.store = (mergeDef d).store ∧
      ((mergeDef d).auto = none → n.auto.getD false = false) ∧
      ((mergeDef d).store = none → n.store.getD false = false)) := by
  cases hs : (mergeDef d).schema with
  | none =>
    simp only [normalizeResourceDefinition, hs] at h
    exact Except.noConfusion h
  | some sch =>
    cases hu : (mergeDef d).url with
    | none =>
      simp only [normalizeResourceDefinition, hs, hu] at h
      exact Except.noConfusion h
    | some u0 =>
      by_cases hq : hasLiteralQuery u0 = true
      · simp only [normalizeResourceDefinition, hs, hu, if_pos hq] at h
        exact Except.noConfusion h
      · simp only [normalizeResourceDefinition, hs, hu, if_neg hq] at h
        have hn := Except.ok.inj h
        constructor
        · intro hg
          rw [← hn]
          simp only []
          rw [if_pos hg, if_pos hg]
          exact ⟨rfl, rfl⟩
        · intro hg
          rw [← hn]
          simp only []
          rw [if_neg hg, if_neg hg]
          refine ⟨rfl, rfl, fun ha => ?_, fun hb => ?_⟩
          · rw [ha]
            rfl
          · rw [hb]
            rfl

/-- C8 witness: a concrete GET definition gets auto filled in as true
and a concrete POST definition keeps auto absent. -/
theorem normalizeResourceDefinition_auto_store_witness :
    (normalizeResourceDefinition rawGet).map (fun n => n.auto) = Except.ok (some true) ∧
    (normalizeResourceDefinition rawPost).map (fun n => n.auto) = Except.ok none := by
  obtain ⟨n1, h1⟩ : ∃ n, normalizeResourceDefinition rawGet = .ok n := ⟨_, rfl⟩
  obtain ⟨n2, h2⟩ : ∃ n, normalizeResourceDefinition rawPost = .ok n := ⟨_, rfl⟩
  have g1 := (normalizeResourceDefinition_auto_store rawGet n1 h1).1 (by decide)
  have g2 := (normalizeResourceDefinition_auto_store rawPost n2 h2).2 (by decide)
  constructor
  · rw [h1]
    simp only [Except.map]
    rw [g1.1]
    rfl
  · rw [h2]
    simp only [Except.map]
    rw [g2.1]
    rfl

theorem option_orElse_eq_none {α : Type} {a b : Option α} (h : (a <|> b) = none) :
    a = none ∧ b = none := by
  cases a with
  | none => exact ⟨rfl, h⟩
  | some x => exact Option.noConfusion h

theorem option_orElse_self_right {α : Type} (a b : Option α) :
    ((a <|> b) <|> b) = (a <|> b) := by
  cases a with
  | none =>
    cases b with
    | none => rfl
    | some y => rfl
  | some x => rfl

theorem option_map_orElse_absorb {α : Type} {x b : Option α} (f : α → α)
    (h : x = none → b = none) : (x.map f <|> b) = x.map f := by
  cases x with
  | none => exact h rfl
  | some v => rfl

theorem option_map_stringify_idem (x : Option (List (String × JsonVal))) :
    (x.map stringifyObjectValues).map stringifyObjectValues = x.map stringifyObjectValues := by
  cases x with
  | none => rfl
  | some l =>
    simp only [Option.map_some']
    rw [stringifyObjectValues_idem]

/-- Hashing already value-stringified headers and body gives the same
request key as hashing the originals: the canonicalizer performs that
stringification itself. -/
theorem requestKey_stringified (url method : String)
    (h b : Option (List (String × JsonVal))) :
    requestKey url (h.map stringifyObjectValues) method (b.map stringifyObjectValues)
      = requestKey url h method b := by
  unfold requestKey
  have hh : normalizeParams ((h.map stringifyObjectValues).getD [])
      = normalizeParams (h.getD []) := by
    cases h with
    | none => rfl
    | some l => exact normalizeParams_stringify l
  have hb : normalizeParams ((b.map stringifyObjectValues).getD [])
      = normalizeParams (b.getD []) := by
    cases b with
    | none => rfl
    | some l => exact normalizeParams_stringify l
  rw [hh, hb]

/-- Normalizing the object a previous normalization returned is the
identity provided the normalized definition is a fixed point in each
field: its url canonical and query-free, its method upper-case, its
headers and body already stringified and absorbing their extends
fall-backs, its params absent, and its derived fields consistent. -/
theorem normalizeResourceDefinition_reraw (n : NormalizedDef)
    (hqm : containsQuestionMark n.url = false)
    (hmeth : jsToUpper n.method = n.method)
    (hurl : fullUrl n.url none = n.url)
    (hp : n.params = none)
    (hpe : n.«extends».params = none)
    (hh : (n.headers <|> n.«extends».headers) = n.headers)
    (hb : (n.body <|> n.«extends».body) = n.body)
    (hhs : n.headers.map stringifyObjectValues = n.headers)
    (hbs : n.body.map stringifyObjectValues = n.body)
    (hIsArr : schemaIsArray n.schema = n.isArray)
    (hkey : requestKey n.url n.headers n.method n.body = n.requestKey)
    (hauto : (if n.method = "GET" then some ((n.auto <|> n.«extends».auto).getD true)
        else (n.auto <|> n.«extends».auto)) = n.auto)
    (hstore : (if n.method = "GET" then some ((n.store <|> n.«extends».store).getD true)
        else (n.store <|> n.«extends».store)) = n.store) :
    normalizeResourceDefinition (reraw n) = .ok n := by
  have e1 : (mergeDef (reraw n)).schema = some n.schema := rfl
  have e2 : (mergeDef (reraw n)).url = some n.url := rfl
  have e3 : (mergeDef (reraw n)).method = n.method := rfl
  have e4 : (mergeDef (reraw n)).headers = n.headers := hh
  have e5 : (mergeDef (reraw n)).body = n.body := hb
  have e6 : (mergeDef (reraw n)).params = none := by
    show (n.params <|> n.«extends».params) = none
    rw [hp, hpe]
    rfl
  have e7 : (mergeDef (reraw n)).defaultValue = some n.defaultValue := rfl
  have e8 : (mergeDef (reraw n)).clientOnly = n.clientOnly := rfl
  have e9 : (mergeDef (reraw n)).«extends» = n.«extends» := rfl
  have e10 : (mergeDef (reraw n)).auto = (n.auto <|> n.«extends».auto) := rfl
  have e11 : (mergeDef (reraw n)).store = (n.store <|> n.«extends».store) := rfl
  have hlq : hasLiteralQuery n.url = false := hasLiteralQuery_of_no_qm hqm
  have hnot : ¬(hasLiteralQuery n.url = true) := by
    rw [hlq]
    exact Bool.noConfusion
  simp only [normalizeResourceDefinition, e1, e2, e3, e4, e5, e6, e7, e8, e9, e10, e11]
  rw [if_neg hnot]
  rw [hurl, hmeth, hIsArr, hkey, hhs, hbs, hauto, hstore]
  simp only [Option.map_none', Option.getD_some]
  rw [← hp]

/-- C2 amended: for a valid raw definition whose merged params are
absent and whose merged url contains no question mark, the second
normalization returns exactly the first result: renormalize agrees with
normalizeResourceDefinition.  (With params present the derived url
gains a literal query string and the second normalization raises
instead; see the counterexample.) -/
theorem normalizeResourceDefinition_idem (d : RawDef) (u : String) (sch : Schema)
    (hs : (mergeDef d).schema = some sch)
    (hu : (mergeDef d).url = some u)
    (hq : containsQuestionMark u = false)
    (hp : (mergeDef d).params = none) :
    renormalize d = normalizeResourceDefinition d := by
  have hqs : containsQuestionMark (stripTrailingSlashes u) = false :=
    containsQuestionMark_strip hq
  have hfu : fullUrl u none = stripTrailingSlashes u := fullUrl_none_no_qm hq
  have hfu2 : fullUrl (stripTrailingSlashes u) none = stripTrailingSlashes u := by
    rw [fullUrl_none_no_qm hqs, stripTrailingSlashes_idem]
  have hp2 : (d.params <|> (d.«extends».getD emptyRawBase).params) = none := hp
  obtain ⟨hdp, hep⟩ := option_orElse_eq_none hp2
  have h1 : normalizeResourceDefinition d = .ok
      { schema := sch
        url := stripTrailingSlashes u
        method := jsToUpper (mergeDef d).method
        headers := (mergeDef d).headers.map stringifyObjectValues
        body := (mergeDef d).body.map stringifyObjectValues
        params := none
        isArray := schemaIsArray sch
        requestKey := requestKey (stripTrailingSlashes u) (mergeDef d).headers
          (jsToUpper (mergeDef d).method) (mergeDef d).body
        defaultValue := (mergeDef d).defaultValue.getD
          (if schemaIsArray sch then .arr [] else .obj [])
        auto := if jsToUpper (mergeDef d).method = "GET"
          then some ((mergeDef d).auto.getD true) else (mergeDef d).auto
        store := if jsToUpper (mergeDef d).method = "GET"
          then some ((mergeDef d).store.getD true) else (mergeDef d).store
        clientOnly := (mergeDef d).clientOnly
        «extends» := (mergeDef d).«extends» } := by
    have hnot : ¬(hasLiteralQuery u = true) := by
      rw [hasLiteralQuery_of_no_qm hq]
      exact Bool.noConfusion
    simp only [normalizeResourceDefinition, hs, hu, hp]
    rw [if_neg hnot, hfu]
    simp only [Option.map_none']
  have hext : (mergeDef d).«extends» = d.«extends».getD emptyRawBase := rfl
  have hhm : (mergeDef d).headers = (d.headers <|> (d.«extends».getD emptyRawBase).headers) := rfl
  have hbm : (mergeDef d).body = (d.body <|> (d.«extends».getD emptyRawBase).body) := rfl
  have ham : (mergeDef d).auto = (d.auto <|> (d.«extends».getD emptyRawBase).auto) := rfl
  have hsm : (mergeDef d).store = (d.store <|> (d.«extends».getD emptyRawBase).store) := rfl
  unfold renormalize
  rw [h1]
  show normalizeResourceDefinition (reraw _) = _
  refine normalizeResourceDefinition_reraw _ ?_ ?_ ?_ ?_ ?_ ?_ ?_ ?_ ?_ ?_ ?_ ?_ ?_
  · exact hqs
  · exact jsToUpper_idem _
  · exact hfu2
  · rfl
  · exact hep
  · show ((mergeDef d).headers.map stringifyObjectValues
        <|> (mergeDef d).«extends».headers) = (mergeDef d).headers.map stringifyObjectValues
    rw [hext, hhm]
    refine option_map_orElse_absorb _ fun hnone => ?_
    exact (option_orElse_eq_none hnone).2
  · show ((mergeDef d).body.map stringifyObjectValues
        <|> (mergeDef d).«extends».body) = (mergeDef d).body.map stringifyObjectValues
    rw [hext, hbm]
    refine option_map_orElse_absorb _ fun hnone => ?_
    exact (option_orElse_eq_none hnone).2
  · exact option_map_stringify_idem _
  · exact option_map_stringify_idem _
  · rfl
  · exact requestKey_stringified _ _ _ _
  · show (if jsToUpper (mergeDef d).method = "GET"
        then some (((if jsToUpper (mergeDef d).method = "GET"
            then some ((mergeDef d).auto.getD true) else (mergeDef d).auto)
          <|> (mergeDef d).«extends».auto).getD true)
        else ((if jsToUpper (mergeDef d).method = "GET"
            then some ((mergeDef d).auto.getD true) else (mergeDef d).auto)
          <|> (mergeDef d).«extends».auto))
      = (if jsToUpper (mergeDef d).method = "GET"
          then some ((mergeDef d).auto.getD true) else (mergeDef d).auto)
    by_cases hg : jsToUpper (mergeDef d).method = "GET"
    · rw [if_pos hg, if_pos hg]
      rfl
    · rw [if_neg hg, if_neg hg]
      rw [hext, ham]
      exact option_orElse_self_right _ _
  · show (if jsToUpper (mergeDef d).method = "GET"
        then some (((if jsToUpper (mergeDef d).method = "GET"
            then some ((mergeDef d).store.getD true) else (mergeDef d).store)
          <|> (mergeDef d).«extends».store).getD true)
        else ((if jsToUpper (mergeDef d).method = "GET"
            then some ((mergeDef d).store.getD true) else (mergeDef d).store)
          <|> (mergeDef d).«extends».store))
      = (if jsToUpper (mergeDef d).method = "GET"
          then some ((mergeDef d).store.getD true) else (mergeDef d).store)
    by_cases hg : jsToUpper (mergeDef d).method = "GET"
    · rw [if_pos hg, if_pos hg]
      rfl
    · rw [if_neg hg, if_neg hg]
      rw [hext, hsm]
      exact option_orElse_self_right _ _

/-- C2 counterexample: a valid definition with params normalizes fine
(its derived url embeds the canonicalized query string), but normalizing
the result again raises the literal-query-string definition error, so
normalize of normalize neither succeeds nor equals a single
normalization. -/
theorem renormalize_params_counterexample :
    (normalizeResourceDefinition rawWithParams).map (fun n => n.url)
      = Except.ok "http://a/users?a=1" ∧
    renormalize rawWithParams = Except.error DefError.literalQueryString :=
  ⟨rfl, rfl⟩

/-- C2 amended, witness at a concrete params-free GET definition. -/
theorem normalizeResourceDefinition_idem_witness :
    renormalize rawGet = normalizeResourceDefinition rawGet :=
  normalizeResourceDefinition_idem rawGet "http://a/users" (.collection "user")
    rfl rfl (by decide) rfl
